import Mathlib

/-!
Shallow embedding of the chart/report utilities in
`research_visualizations.py` and `visualization_code.py`
(GSA_Fraud_Detection): the anomaly-subset selection, top-K, value
counts, grouped means, temporal bucketing and the correlation matrix,
together with proofs of the specified properties.

Tables are embedded as lists of (index label, row) pairs, mirroring a
pandas DataFrame: `iloc` is positional, boolean filtering keeps labels,
and `.index` extracts labels.  Numeric values are `ℚ` (exact model of
the float computations), dates are either unparsed text or a parsed
timestamp, and fallible operations return `Option`/`Except`.
-/

/-- A transaction-date cell: raw text awaiting parsing, or an already
parsed timestamp (what `pd.to_datetime` produces). -/
inductive DateField where
  | text (s : String)
  | stamp (t : Int)
deriving DecidableEq

/-- One row of the transactions table (`merged_df`).  `mcc` and
`merchant zip` may be missing (NaN), which matters for the
pairwise-complete correlation; `transaction amount` is required. -/
structure TransactionRow where
  amount : ℚ
  merchantName : String
  mccDescription : String
  mcc : Option ℚ
  merchantZip : Option ℚ
  region : String
  transactionDate : DateField
deriving DecidableEq

/-- One row of the anomaly-results table (`anomaly_df`). -/
structure AnomalyRow where
  ensemble_score : ℚ
  kmeans_score_norm : ℚ
  iso_score_norm : ℚ
  recon_error : ℚ
  is_anomaly : Int
deriving DecidableEq

/-- A DataFrame: rows tagged with their (integer) index labels. -/
abbrev DF (ρ : Type) : Type := List (Int × ρ)

/-- Boolean-mask filtering `df[pred]`: keeps rows (with their labels)
whose data satisfies the predicate. -/
def dfFilter (p : ρ → Bool) (df : DF ρ) : DF ρ :=
  df.filter (fun r => p r.2)

/-- `df.index`: the list of index labels. -/
def dfIndex (df : DF ρ) : List Int :=
  df.map Prod.fst

/-- `df.iloc[i]` for a single integer `i`: positional lookup, with
Python-style negative indexing; `none` models the `IndexError`. -/
def ilocOne (df : DF ρ) (i : Int) : Option (Int × ρ) :=
  if i < 0 then
    if i + df.length < 0 then none else df[(i + df.length).toNat]?
  else df[i.toNat]?

/-- `df.iloc[list]`: positional selection of several rows; fails
(`IndexError`) as soon as one position is out of range. -/
def iloc (df : DF ρ) : List Int → Option (DF ρ)
  | [] => some []
  | i :: is => (ilocOne df i).bind (fun r => (iloc df is).map (r :: ·))

/-- Label the rows `k, k+1, k+2, ...` in order. -/
def intEnumFrom (k : Nat) : List ρ → DF ρ
  | [] => []
  | r :: rs => ((k : Int), r) :: intEnumFrom (k + 1) rs

/-- The default `RangeIndex` labelling `0, 1, 2, ...`. -/
def withDefaultIndex (rows : List ρ) : DF ρ :=
  intEnumFrom 0 rows

/-- `df.reset_index(drop=True)`: same rows, relabelled `0..n-1`. -/
def resetIndex (df : DF ρ) : DF ρ :=
  withDefaultIndex (df.map Prod.snd)

/-- The selection pattern shared by every chart:
`merged_df.iloc[anomaly_df[anomaly_df[col] == v].index]` — filter `A`
by a predicate, take the resulting **labels**, and use them as
**positions** into `T`. -/
def selectRows (p : AnomalyRow → Bool) (T : DF TransactionRow)
    (A : DF AnomalyRow) : Option (DF TransactionRow) :=
  iloc T (dfIndex (dfFilter p A))

/-- The anomalous-subset selection
(`merged_df.iloc[anomaly_df[anomaly_df['is_anomaly'] == 1].index]`,
line 90 of `research_visualizations.py`). -/
def selectAnomalousRows (T : DF TransactionRow) (A : DF AnomalyRow) :
    Option (DF TransactionRow) :=
  selectRows (fun a => a.is_anomaly == 1) T A

/-- Modelled from the spec's words, for comparison with the code: "the
sub-sequence of rows of T at the ordinal positions where
`A[i].is_anomaly == 1`, preserving T's row order" — a purely positional
selection, labels ignored. -/
def specSelect (T : List τ) (Arows : List AnomalyRow) : List τ :=
  ((T.zip Arows).filter (fun q => q.2.is_anomaly == 1)).map Prod.fst

/-- Positional selection by an arbitrary predicate (spec-side helper
generalising `specSelect`). -/
def specSelectP (p : AnomalyRow → Bool) (T : List τ)
    (Arows : List AnomalyRow) : List τ :=
  ((T.zip Arows).filter (fun q => p q.2)).map Prod.fst

section SelectionLemmas

theorem specSelectP_cons_pos (p : AnomalyRow → Bool) (x : τ) (xs : List τ)
    (a : AnomalyRow) (rest : List AnomalyRow) (hp : p a = true) :
    specSelectP p (x :: xs) (a :: rest) = x :: specSelectP p xs rest := by
  unfold specSelectP
  rw [List.zip_cons_cons, List.filter_cons]
  simp [hp]

theorem specSelectP_cons_neg (p : AnomalyRow → Bool) (x : τ) (xs : List τ)
    (a : AnomalyRow) (rest : List AnomalyRow) (hp : p a = false) :
    specSelectP p (x :: xs) (a :: rest) = specSelectP p xs rest := by
  unfold specSelectP
  rw [List.zip_cons_cons, List.filter_cons]
  simp [hp]

/-- Key lemma: when `A` carries consecutive labels `k, k+1, ...` that
all remain in range of `T`, the label-as-position selection agrees with
the purely positional (spec) selection on `T.drop k`. -/
theorem iloc_filter_intEnumFrom (p : AnomalyRow → Bool) (T : DF TransactionRow)
    (Arows : List AnomalyRow) (k : Nat) (h : k + Arows.length ≤ T.length) :
    iloc T (dfIndex (dfFilter p (intEnumFrom k Arows)))
      = some (specSelectP p (T.drop k) Arows) := by
  induction Arows generalizing k with
  | nil =>
    simp [iloc, dfIndex, dfFilter, intEnumFrom, specSelectP]
  | cons a rest ih =>
    have hk : k < T.length := by
      simp only [List.length_cons] at h; omega
    have hdrop : T.drop k = T[k] :: T.drop (k + 1) :=
      List.drop_eq_getElem_cons hk
    have hrest : k + 1 + rest.length ≤ T.length := by
      simp only [List.length_cons] at h; omega
    have hone : ilocOne T ((k : Nat) : Int) = some T[k] := by
      rw [ilocOne, if_neg (by omega), Int.toNat_natCast]
      exact List.getElem?_eq_getElem hk
    have ihk := ih (k + 1) hrest
    cases hp : p a with
    | false =>
      have hfil : dfFilter p (intEnumFrom k (a :: rest))
          = dfFilter p (intEnumFrom (k + 1) rest) := by
        simp [dfFilter, intEnumFrom, List.filter_cons, hp]
      have hspec : specSelectP p (T.drop k) (a :: rest)
          = specSelectP p (T.drop (k + 1)) rest := by
        rw [hdrop, specSelectP_cons_neg p _ _ _ _ hp]
      rw [hfil, ihk, hspec]
    | true =>
      have hfil : dfIndex (dfFilter p (intEnumFrom k (a :: rest)))
          = ((k : Nat) : Int) :: dfIndex (dfFilter p (intEnumFrom (k + 1) rest)) := by
        simp [dfFilter, dfIndex, intEnumFrom, List.filter_cons, hp]
      have hspec : specSelectP p (T.drop k) (a :: rest)
          = T[k] :: specSelectP p (T.drop (k + 1)) rest := by
        rw [hdrop, specSelectP_cons_pos p _ _ _ _ hp]
      rw [hfil]
      simp only [iloc, hone, Option.some_bind, ihk, Option.map_some']
      rw [hspec]

end SelectionLemmas

/-! ### Stable descending sort and `nlargest`

`DataFrame.nlargest(k, col)` (used at line 91 of
`research_visualizations.py`) returns the `k` rows with the largest
value in `col`, in descending order, ties kept in original row order
(`keep='first'`).  This is exactly: tag each row with its position,
sort by (key descending, position ascending), take `k`. -/

/-- The order used by `nlargest`: larger key first; on equal keys the
earlier original position first. -/
def keyOrder (key : ρ → ℚ) (p q : Nat × ρ) : Prop :=
  key q.2 < key p.2 ∨ (key p.2 = key q.2 ∧ p.1 ≤ q.1)

instance (key : ρ → ℚ) : DecidableRel (keyOrder key) := fun p q => by
  unfold keyOrder; infer_instance

instance (key : ρ → ℚ) : IsTotal (Nat × ρ) (keyOrder key) where
  total p q := by
    unfold keyOrder
    rcases lt_trichotomy (key p.2) (key q.2) with h | h | h
    · exact Or.inr (Or.inl h)
    · rcases Nat.le_total p.1 q.1 with h' | h'
      · exact Or.inl (Or.inr ⟨h, h'⟩)
      · exact Or.inr (Or.inr ⟨h.symm, h'⟩)
    · exact Or.inl (Or.inl h)

instance (key : ρ → ℚ) : IsTrans (Nat × ρ) (keyOrder key) where
  trans p q s hpq hqs := by
    unfold keyOrder at *
    rcases hpq with h1 | ⟨h1, h1'⟩ <;> rcases hqs with h2 | ⟨h2, h2'⟩
    · exact Or.inl (lt_trans h2 h1)
    · exact Or.inl (h2 ▸ h1)
    · exact Or.inl (h1 ▸ h2)
    · exact Or.inr ⟨h1.trans h2, h1'.trans h2'⟩

/-- Position-tagged stable descending sort. -/
def sortIdx (key : ρ → ℚ) (l : List ρ) : List (Nat × ρ) :=
  List.insertionSort (keyOrder key) l.enum

/-- Stable sort by `key`, descending (the order `nlargest` produces). -/
def stableDescSort (key : ρ → ℚ) (l : List ρ) : List ρ :=
  (sortIdx key l).map Prod.snd

/-- `df.nlargest(k, col)`. -/
def nlargest (k : Nat) (key : ρ → ℚ) (l : List ρ) : List ρ :=
  (stableDescSort key l).take k

theorem sortIdx_sorted (key : ρ → ℚ) (l : List ρ) :
    List.Sorted (keyOrder key) (sortIdx key l) :=
  List.sorted_insertionSort (keyOrder key) l.enum

theorem sortIdx_perm (key : ρ → ℚ) (l : List ρ) :
    (sortIdx key l).Perm l.enum :=
  List.perm_insertionSort (keyOrder key) l.enum

theorem stableDescSort_perm (key : ρ → ℚ) (l : List ρ) :
    (stableDescSort key l).Perm l := by
  have h := (sortIdx_perm key l).map Prod.snd
  rwa [List.enum_map_snd] at h

theorem stableDescSort_length (key : ρ → ℚ) (l : List ρ) :
    (stableDescSort key l).length = l.length :=
  (stableDescSort_perm key l).length_eq

theorem sortIdx_pairwise_ne_fst (key : ρ → ℚ) (l : List ρ) :
    (sortIdx key l).Pairwise (fun p q => p.1 ≠ q.1) := by
  have henum : (l.enum.map Prod.fst).Nodup := by
    rw [List.enum_map_fst]; exact List.nodup_range _
  have hperm := (sortIdx_perm key l).map Prod.fst
  have : ((sortIdx key l).map Prod.fst).Nodup := hperm.nodup_iff.mpr henum
  exact (List.pairwise_map).mp this

/-- Stability: the position-tagged sort is strictly lex-sorted —
descending keys, and on equal keys strictly increasing original
positions. -/
theorem sortIdx_sorted_strict (key : ρ → ℚ) (l : List ρ) :
    (sortIdx key l).Pairwise
      (fun p q => key q.2 < key p.2 ∨ (key p.2 = key q.2 ∧ p.1 < q.1)) := by
  have h1 : (sortIdx key l).Pairwise (keyOrder key) := sortIdx_sorted key l
  have h2 := sortIdx_pairwise_ne_fst key l
  refine List.Pairwise.imp ?_ (List.Pairwise.and h1 h2)
  rintro p q ⟨hlt | ⟨heq, hle⟩, hne⟩
  · exact Or.inl hlt
  · exact Or.inr ⟨heq, lt_of_le_of_ne hle hne⟩

theorem stableDescSort_pairwise (key : ρ → ℚ) (l : List ρ) :
    (stableDescSort key l).Pairwise (fun x y => key y ≤ key x) := by
  have h : (sortIdx key l).Pairwise (keyOrder key) := sortIdx_sorted key l
  unfold stableDescSort
  refine (List.pairwise_map).mpr (List.Pairwise.imp ?_ h)
  rintro p q (h | ⟨h, _⟩)
  · exact le_of_lt h
  · exact le_of_eq h.symm

theorem nlargest_pairwise (k : Nat) (key : ρ → ℚ) (l : List ρ) :
    (nlargest k key l).Pairwise (fun x y => key y ≤ key x) :=
  (stableDescSort_pairwise key l).sublist (List.take_sublist k _)

/-- A list already sorted descending by `key` is a fixed point of the
stable descending sort. -/
theorem stableDescSort_of_pairwise (key : ρ → ℚ) (l : List ρ)
    (h : l.Pairwise (fun x y => key y ≤ key x)) :
    stableDescSort key l = l := by
  have hs : List.Sorted (keyOrder key) l.enum := by
    refine List.pairwise_iff_getElem.mpr ?_
    intro i j hi hj hij
    rw [List.enum_length] at hi hj
    have hkey : key l[j] ≤ key l[i] :=
      (List.pairwise_iff_getElem.mp h) i j hi hj hij
    rw [List.getElem_enum, List.getElem_enum]
    rcases eq_or_lt_of_le hkey with heq | hlt
    · exact Or.inr ⟨heq.symm, le_of_lt hij⟩
    · exact Or.inl hlt
  unfold stableDescSort sortIdx
  rw [hs.insertionSort_eq, List.enum_map_snd]

theorem nlargest_length (k : Nat) (key : ρ → ℚ) (l : List ρ) :
    (nlargest k key l).length = min k l.length := by
  unfold nlargest
  rw [List.length_take, stableDescSort_length]

/-- When `K` exceeds the subset size, `nlargest` keeps every row (the
whole subset, in descending order). -/
theorem nlargest_of_le (k : Nat) (key : ρ → ℚ) (l : List ρ)
    (h : l.length ≤ k) : nlargest k key l = stableDescSort key l := by
  unfold nlargest
  exact List.take_of_length_le (by rw [stableDescSort_length]; exact h)

theorem nlargest_perm_of_le (k : Nat) (key : ρ → ℚ) (l : List ρ)
    (h : l.length ≤ k) : (nlargest k key l).Perm l := by
  rw [nlargest_of_le k key l h]; exact stableDescSort_perm key l

/-- `nlargest` really selects the `K` *largest*: the input is a
permutation of the output plus a remainder, every element of which has
key at most that of every selected row. -/
theorem nlargest_largest (k : Nat) (key : ρ → ℚ) (l : List ρ) :
    ∃ rest, l.Perm (nlargest k key l ++ rest) ∧
      ∀ x ∈ nlargest k key l, ∀ y ∈ rest, key y ≤ key x := by
  refine ⟨(stableDescSort key l).drop k, ?_, ?_⟩
  · have h := (stableDescSort_perm key l).symm
    rwa [← List.take_append_drop k (stableDescSort key l)] at h
  · have hp := stableDescSort_pairwise key l
    rw [← List.take_append_drop k (stableDescSort key l)] at hp
    exact fun x hx y hy => (List.pairwise_append.mp hp).2.2 x hx y hy

/-- Top-K is idempotent: its output is already sorted descending with
ties in order, so running it again returns the same sequence. -/
theorem nlargest_idem (k : Nat) (key : ρ → ℚ) (l : List ρ) :
    nlargest k key (nlargest k key l) = nlargest k key l := by
  have hfix := stableDescSort_of_pairwise key (nlargest k key l)
    (nlargest_pairwise k key l)
  show (stableDescSort key (nlargest k key l)).take k = nlargest k key l
  rw [hfix]
  apply List.take_of_length_le
  rw [nlargest_length]
  omega

/-! ### `value_counts`

`Series.value_counts()` (lines 103, 136, 192 of
`research_visualizations.py`): counts per distinct value, in
first-occurrence order, sorted by count descending (stable, so ties
stay in first-occurrence order); `.head(n)` truncates. -/

/-- The distinct values of a list, in order of first occurrence. -/
def uniqueInOrder [DecidableEq α] : List α → List α
  | [] => []
  | x :: xs => x :: (uniqueInOrder xs).filter (fun y => y ≠ x)

/-- `Series.value_counts()`: (value, count) pairs, count descending,
ties in first-occurrence order. -/
def valueCounts [DecidableEq α] (vals : List α) : List (α × Nat) :=
  stableDescSort (fun p => (p.2 : ℚ))
    ((uniqueInOrder vals).map (fun v => (v, vals.count v)))

theorem mem_uniqueInOrder [DecidableEq α] (xs : List α) (a : α) :
    a ∈ uniqueInOrder xs ↔ a ∈ xs := by
  induction xs with
  | nil => simp [uniqueInOrder]
  | cons x rest ih =>
    simp only [uniqueInOrder, List.mem_cons, List.mem_filter, ih,
      decide_eq_true_eq]
    by_cases hax : a = x
    · simp [hax]
    · simp [hax]

theorem nodup_uniqueInOrder [DecidableEq α] (xs : List α) :
    (uniqueInOrder xs).Nodup := by
  induction xs with
  | nil => simp [uniqueInOrder]
  | cons x rest ih =>
    rw [uniqueInOrder, List.nodup_cons]
    refine ⟨?_, ih.filter _⟩
    intro hmem
    have := (List.mem_filter.mp hmem).2
    simp at this

/-- The counts over the distinct values sum to the list length. -/
theorem sum_count_uniqueInOrder [DecidableEq α] (xs : List α) :
    (((uniqueInOrder xs).map (fun v => xs.count v)).sum) = xs.length := by
  induction xs with
  | nil => simp [uniqueInOrder]
  | cons x rest ih =>
    rw [uniqueInOrder, List.map_cons, List.sum_cons]
    have htail : ((uniqueInOrder rest).filter (fun y => y ≠ x)).map
          (fun v => (x :: rest).count v)
        = ((uniqueInOrder rest).filter (fun y => y ≠ x)).map
          (fun v => rest.count v) := by
      apply List.map_congr_left
      intro v hv
      have hvne : v ≠ x := by simpa using (List.mem_filter.mp hv).2
      rw [List.count_cons, if_neg (by simpa using Ne.symm hvne), Nat.add_zero]
    rw [htail]
    have hperm := (List.filter_append_perm (fun y => decide (y ≠ x))
      (uniqueInOrder rest)).map (fun v => rest.count v)
    have hsum := hperm.sum_eq
    rw [List.map_append, List.sum_append, ih] at hsum
    have hfe : (uniqueInOrder rest).filter (fun y => !(decide (y ≠ x)))
        = if x ∈ rest then [x] else [] := by
      have heq : (uniqueInOrder rest).filter (fun y => !(decide (y ≠ x)))
          = (uniqueInOrder rest).filter (fun y => y == x) := by
        apply List.filter_congr
        intro y _
        by_cases hy : y = x <;> simp [hy]
      rw [heq, List.filter_beq]
      by_cases hx : x ∈ rest
      · rw [List.count_eq_one_of_mem (nodup_uniqueInOrder rest)
          ((mem_uniqueInOrder rest x).mpr hx), if_pos hx]
        rfl
      · rw [List.count_eq_zero.mpr (fun hmem =>
          hx ((mem_uniqueInOrder rest x).mp hmem)), if_neg hx]
        rfl
    rw [hfe] at hsum
    by_cases hx : x ∈ rest
    · rw [if_pos hx] at hsum
      simp only [List.map_cons, List.map_nil, List.sum_cons, List.sum_nil,
        Nat.add_zero] at hsum
      rw [List.count_cons_self, List.length_cons]
      omega
    · rw [if_neg hx] at hsum
      simp only [List.map_nil, List.sum_nil, Nat.add_zero] at hsum
      rw [List.count_cons_self, List.count_eq_zero.mpr hx, List.length_cons]
      omega

/-- The counts of `value_counts` sum to the number of rows counted. -/
theorem valueCounts_sum [DecidableEq α] (vals : List α) :
    ((valueCounts vals).map Prod.snd).sum = vals.length := by
  have hperm := (stableDescSort_perm (fun p : α × Nat => (p.2 : ℚ))
      ((uniqueInOrder vals).map (fun v => (v, vals.count v)))).map Prod.snd
  have hsum := hperm.sum_eq
  unfold valueCounts
  rw [hsum, List.map_map]
  have : (Prod.snd ∘ fun v => (v, vals.count v)) = fun v => vals.count v := rfl
  rw [this]
  exact sum_count_uniqueInOrder vals

/-- `value_counts` output is sorted by count, descending. -/
theorem valueCounts_pairwise [DecidableEq α] (vals : List α) :
    (valueCounts vals).Pairwise (fun p q => q.2 ≤ p.2) := by
  have h := stableDescSort_pairwise (fun p : α × Nat => (p.2 : ℚ))
      ((uniqueInOrder vals).map (fun v => (v, vals.count v)))
  exact List.Pairwise.imp (fun h => by exact_mod_cast h) h

/-! ### Means and histograms -/

/-- `Series.mean()`: `none` models pandas' NaN on an empty series. -/
def qmean (l : List ℚ) : Option ℚ :=
  if l.length = 0 then none else some (l.sum / l.length)

/-- Minimum of `x :: xs` (as `Series.min()` on a nonempty series). -/
def listMin (x : ℚ) (xs : List ℚ) : ℚ := xs.foldl min x

/-- Maximum of `x :: xs`. -/
def listMax (x : ℚ) (xs : List ℚ) : ℚ := xs.foldl max x

/-- The bucket index of `x` among `B` equal-width buckets spanning
`[lo, hi]` (numpy histogram binning: half-open buckets, last bucket
closed; a degenerate range puts everything in the middle bucket). -/
def bucketOf (lo hi : ℚ) (B : Nat) (x : ℚ) : Nat :=
  if hi ≤ lo then B / 2
  else min (B - 1) (⌊(x - lo) * B / (hi - lo)⌋.toNat)

/-- Histogram counts for `B` buckets spanning `[lo, hi]`. -/
def histogramRange (lo hi : ℚ) (B : Nat) (xs : List ℚ) : List Nat :=
  (List.range B).map (fun j => (xs.map (bucketOf lo hi B)).count j)

/-- `histplot(data, bins=B)`: `B` equal-width buckets spanning the
[min, max] range of the data itself. -/
def histogram (B : Nat) (xs : List ℚ) : List Nat :=
  match xs with
  | [] => List.replicate B 0
  | x :: rest => histogramRange (listMin x rest) (listMax x rest) B (x :: rest)

theorem listMin_le (x : ℚ) (xs : List ℚ) :
    listMin x xs ≤ x ∧ ∀ y ∈ xs, listMin x xs ≤ y := by
  induction xs generalizing x with
  | nil => simp [listMin]
  | cons a as ih =>
    have hfold : listMin x (a :: as) = listMin (min x a) as := rfl
    have h := ih (min x a)
    refine ⟨hfold ▸ (h.1.trans (min_le_left x a)), ?_⟩
    intro y hy
    rcases List.mem_cons.mp hy with rfl | hy
    · exact hfold ▸ (h.1.trans (min_le_right x y))
    · exact hfold ▸ h.2 y hy

theorem le_listMax (x : ℚ) (xs : List ℚ) :
    x ≤ listMax x xs ∧ ∀ y ∈ xs, y ≤ listMax x xs := by
  induction xs generalizing x with
  | nil => simp [listMax]
  | cons a as ih =>
    have hfold : listMax x (a :: as) = listMax (max x a) as := rfl
    have h := ih (max x a)
    refine ⟨hfold ▸ ((le_max_left x a).trans h.1), ?_⟩
    intro y hy
    rcases List.mem_cons.mp hy with rfl | hy
    · exact hfold ▸ ((le_max_right x y).trans h.1)
    · exact hfold ▸ h.2 y hy

theorem bucketOf_lt (lo hi : ℚ) (B : Nat) (x : ℚ) (hB : 1 ≤ B) :
    bucketOf lo hi B x < B := by
  unfold bucketOf
  by_cases h : hi ≤ lo
  · rw [if_pos h]; exact Nat.div_lt_self (by omega) (by omega)
  · rw [if_neg h]
    have : min (B - 1) (((x - lo) * B / (hi - lo)).floor.toNat) ≤ B - 1 :=
      min_le_left _ _
    omega

theorem sum_map_add_nat (l : List Nat) (f g : Nat → Nat) :
    (l.map (fun j => f j + g j)).sum = (l.map f).sum + (l.map g).sum := by
  induction l with
  | nil => simp
  | cons a as ih =>
    simp only [List.map_cons, List.sum_cons, ih]
    omega

theorem sum_map_indicator (l : List Nat) (a : Nat) :
    (l.map (fun j => if j = a then 1 else 0)).sum = l.count a := by
  induction l with
  | nil => simp
  | cons b bs ih =>
    rw [List.map_cons, List.sum_cons, ih, List.count_cons]
    by_cases hb : b = a
    · subst hb; simp; omega
    · rw [if_neg hb, if_neg (by simpa using hb)]
      omega

/-- Generic counting fact: if every element of `ys` is `< B`, the `B`
per-bucket counts sum to the number of elements. -/
theorem sum_counts_range (B : Nat) (ys : List Nat) (h : ∀ y ∈ ys, y < B) :
    ((List.range B).map (fun j => ys.count j)).sum = ys.length := by
  induction ys with
  | nil => simp
  | cons a as ih =>
    have ha : a < B := h a (List.mem_cons_self a as)
    have hih := ih (fun y hy => h y (List.mem_cons_of_mem _ hy))
    have hmap : (List.range B).map (fun j => (a :: as).count j)
        = (List.range B).map (fun j => as.count j + if j = a then 1 else 0) := by
      apply List.map_congr_left
      intro j _
      rw [List.count_cons]
      congr 1
      by_cases hj : j = a
      · subst hj; simp
      · rw [if_neg hj, if_neg (by simpa using Ne.symm hj)]
    rw [hmap, sum_map_add_nat, hih, sum_map_indicator,
      List.count_eq_one_of_mem (List.nodup_range B) (List.mem_range.mpr ha),
      List.length_cons]

/-- Each of the `B` histogram buckets counts its members, so the counts
sum to the number of data points (the data spans its own range, so no
point falls outside). -/
theorem histogram_sum (B : Nat) (hB : 1 ≤ B) (x : ℚ) (rest : List ℚ) :
    (histogram B (x :: rest)).sum = (x :: rest).length := by
  unfold histogram histogramRange
  rw [sum_counts_range]
  · exact List.length_map _ _
  · intro y hy
    rcases List.mem_map.mp hy with ⟨z, _, rfl⟩
    exact bucketOf_lt _ _ _ _ hB

/-- With a single bucket, the histogram is one bucket holding every
data point. -/
theorem histogram_one_bucket (x : ℚ) (rest : List ℚ) :
    histogram 1 (x :: rest) = [(x :: rest).length] := by
  have hr : List.range 1 = [0] := rfl
  unfold histogram histogramRange
  rw [hr]
  simp only [List.map_cons, List.map_nil]
  congr 1
  rw [List.count_eq_length.mpr]
  · simp
  · intro b hb
    rcases List.mem_map.mp (List.map_cons _ x rest ▸ hb) with ⟨z, _, rfl⟩
    have := bucketOf_lt (listMin x rest) (listMax x rest) 1 z (le_refl 1)
    omega

/-! ### Dates, errors, and the embedded chart/report operations -/

/-- The Python-level failures the embedded operations can raise. -/
inductive PyError where
  | indexError
  | zeroDivision
  | dateParseError
deriving DecidableEq

/-- `pd.to_datetime` on one cell, for an ambient text parser `p`:
parses text (failing on unparseable values), passes timestamps through. -/
def parseDate (p : String → Option Int) : DateField → Option Int
  | .text s => p s
  | .stamp t => some t

/-- Overwrite only the transaction-date field of a row. -/
def setStamp (r : TransactionRow) (t : Int) : TransactionRow :=
  { r with transactionDate := .stamp t }

/-- `merged_df['transaction date'] = pd.to_datetime(merged_df['transaction date'])`
(line 120 of `research_visualizations.py`, line 109 of
`visualization_code.py`): parses the whole column and **assigns it back
onto the input table**, raising `DateParseError` on any unparseable
cell. -/
def toDatetimeColumn (p : String → Option Int) :
    DF TransactionRow → Except PyError (DF TransactionRow)
  | [] => .ok []
  | (l, r) :: rest =>
    match parseDate p r.transactionDate with
    | none => .error .dateParseError
    | some t =>
      match toDatetimeColumn p rest with
      | .error e => .error e
      | .ok rest' => .ok ((l, setStamp r t) :: rest')

/-- The timestamp stored in a parsed date cell. -/
def stampOf : DateField → Int
  | .stamp t => t
  | .text _ => 0

/-- `create_temporal_analysis` (lines 115-129 of
`research_visualizations.py`): parse the full date column in place,
select the anomalous subset, and histogram the subset's dates with `B`
buckets (`bins=30` in the source).  Returns the updated table (the
input was mutated!) together with the bucket counts. -/
def create_temporal_analysis (p : String → Option Int) (B : Nat)
    (T : DF TransactionRow) (A : DF AnomalyRow) :
    Except PyError (DF TransactionRow × List Nat) :=
  match toDatetimeColumn p T with
  | .error e => .error e
  | .ok T' =>
    match selectAnomalousRows T' A with
    | none => .error .indexError
    | some sub =>
      .ok (T', histogram B (sub.map (fun r => ((stampOf r.2.transactionDate : Int) : ℚ))))

/-- Modelled from the spec: "partitions the anomalous-subset timestamps
into that many equal-width time buckets spanning [min, max] of the full
dataset's dates".  Identical to the code except that the bucket range
comes from the **full** dataset. -/
def specTemporalBuckets (p : String → Option Int) (B : Nat)
    (T : DF TransactionRow) (A : DF AnomalyRow) :
    Except PyError (List Nat) :=
  match toDatetimeColumn p T with
  | .error e => .error e
  | .ok T' =>
    match selectAnomalousRows T' A with
    | none => .error .indexError
    | some sub =>
      match T'.map (fun r => ((stampOf r.2.transactionDate : Int) : ℚ)) with
      | [] => .ok (List.replicate B 0)
      | d :: ds =>
        .ok (histogramRange (listMin d ds) (listMax d ds) B
          (sub.map (fun r => ((stampOf r.2.transactionDate : Int) : ℚ))))

/-- Lines 90-91: the anomalous subset, then `nlargest(k, 'transaction
amount')` (`k = 10` in the source). -/
def topAnomaliesByAmount (k : Nat) (T : DF TransactionRow)
    (A : DF AnomalyRow) : Option (DF TransactionRow) :=
  (selectAnomalousRows T A).map (nlargest k (fun r => r.2.amount))

/-- Line 103: `value_counts()` of the anomalous subset's regions. -/
def regionCounts (T : DF TransactionRow) (A : DF AnomalyRow) :
    Option (List (String × Nat)) :=
  (selectAnomalousRows T A).map (fun sub =>
    valueCounts (sub.map (fun r => r.2.region)))

/-- `create_mcc_analysis` (line 136): `value_counts().head(10)` of the
anomalous subset's MCC descriptions. -/
def create_mcc_analysis (T : DF TransactionRow) (A : DF AnomalyRow) :
    Option (List (String × Nat)) :=
  (selectAnomalousRows T A).map (fun sub =>
    (valueCounts (sub.map (fun r => r.2.mccDescription))).take 10)

/-- What `print_summary_statistics` writes to stdout. -/
structure SummaryStats where
  totalAnomalies : Nat
  pctFlagged : ℚ
  topRegions : List (String × Nat)
  anomalousMean : Option ℚ
  normalMean : Option ℚ
deriving DecidableEq

/-- `print_summary_statistics` (lines 184-202 of
`research_visualizations.py`): resets both indices, selects the
anomalous subset, divides the anomaly count by `len(anomaly_data)`
(no guard — `ZeroDivisionError` when `A` is empty), and takes the
group means (pandas returns NaN — `none` — on an empty group). -/
def print_summary_statistics (T : DF TransactionRow) (A : DF AnomalyRow) :
    Except PyError SummaryStats :=
  let Td := resetIndex T
  let Ad := resetIndex A
  match selectRows (fun a => a.is_anomaly == 1) Td Ad with
  | none => .error .indexError
  | some anomSub =>
    let total := (dfFilter (fun a => a.is_anomaly == 1) Ad).length
    if Ad.length = 0 then .error .zeroDivision
    else
      match selectRows (fun a => a.is_anomaly == 0) Td Ad with
      | none => .error .indexError
      | some normSub =>
        .ok { totalAnomalies := total
            , pctFlagged := (total : ℚ) / (Ad.length : ℚ) * 100
            , topRegions := (valueCounts (anomSub.map (fun r => r.2.region))).take 5
            , anomalousMean := qmean (anomSub.map (fun r => r.2.amount))
            , normalMean := qmean (normSub.map (fun r => r.2.amount)) }

/-! ### Correlation matrix

`merged_df[numerical_features].corr()` (lines 149-150 of
`research_visualizations.py`): Pearson correlations over
pairwise-complete observations, mirroring pandas `nancorr`: for each
pair of columns, keep the rows where both values are present, centre
them, and divide the cross sum by the root of the product of the
squared sums; zero observations or a zero divisor yield NaN (`none`). -/

/-- The rows where both fields are present (pairwise-complete
observations for one pair of columns). -/
def completePairs (f g : TransactionRow → Option ℚ)
    (rows : List TransactionRow) : List (ℚ × ℚ) :=
  rows.filterMap (fun r =>
    match f r, g r with
    | some a, some b => some (a, b)
    | _, _ => none)

/-- Mean of the first coordinates. -/
def meanFst (ps : List (ℚ × ℚ)) : ℚ := (ps.map Prod.fst).sum / ps.length

/-- Mean of the second coordinates. -/
def meanSnd (ps : List (ℚ × ℚ)) : ℚ := (ps.map Prod.snd).sum / ps.length

/-- Centred sum of squares of the first coordinates. -/
def sumxx (ps : List (ℚ × ℚ)) : ℚ :=
  (ps.map (fun q => (q.1 - meanFst ps) ^ 2)).sum

/-- Centred sum of squares of the second coordinates. -/
def sumyy (ps : List (ℚ × ℚ)) : ℚ :=
  (ps.map (fun q => (q.2 - meanSnd ps) ^ 2)).sum

/-- Centred cross sum. -/
def covxy (ps : List (ℚ × ℚ)) : ℚ :=
  (ps.map (fun q => (q.1 - meanFst ps) * (q.2 - meanSnd ps))).sum

/-- The Pearson correlation of two columns; `none` models pandas' NaN
(no complete observations, or a zero-variance column). -/
noncomputable def corrPair (f g : TransactionRow → Option ℚ)
    (rows : List TransactionRow) : Option ℝ :=
  if (completePairs f g rows).length = 0 then none
  else if sumxx (completePairs f g rows) * sumyy (completePairs f g rows) = 0
    then none
  else some ((covxy (completePairs f g rows) : ℝ)
    / Real.sqrt ((sumxx (completePairs f g rows) : ℝ)
        * (sumyy (completePairs f g rows) : ℝ)))

/-- `df[fields].corr()` as a matrix of optional reals. -/
noncomputable def corrMatrix (fields : List (TransactionRow → Option ℚ))
    (rows : List TransactionRow) : List (List (Option ℝ)) :=
  fields.map (fun f => fields.map (fun g => corrPair f g rows))

/-- `'transaction amount'` as a numeric column. -/
def amountField (r : TransactionRow) : Option ℚ := some r.amount

/-- `'mcc'` as a numeric column. -/
def mccField (r : TransactionRow) : Option ℚ := r.mcc

/-- `'merchant zip'` as a numeric column. -/
def zipField (r : TransactionRow) : Option ℚ := r.merchantZip

/-- `numerical_features = ['transaction amount', 'mcc', 'merchant zip']`. -/
def numericalFeatures : List (TransactionRow → Option ℚ) :=
  [amountField, mccField, zipField]

/-- `create_correlation_analysis` (lines 145-150). -/
noncomputable def create_correlation_analysis (T : DF TransactionRow) :
    List (List (Option ℝ)) :=
  corrMatrix numericalFeatures (T.map Prod.snd)

theorem completePairs_swap (f g : TransactionRow → Option ℚ)
    (rows : List TransactionRow) :
    completePairs g f rows = (completePairs f g rows).map Prod.swap := by
  induction rows with
  | nil => simp [completePairs]
  | cons r rest ih =>
    unfold completePairs at *
    rw [List.filterMap_cons, List.filterMap_cons]
    cases hf : f r <;> cases hg : g r <;>
      simp [hf, hg, ih, List.map_cons, Prod.swap]

theorem meanFst_swap (ps : List (ℚ × ℚ)) :
    meanFst (ps.map Prod.swap) = meanSnd ps := by
  unfold meanFst meanSnd
  rw [List.length_map, List.map_map]
  rfl

theorem meanSnd_swap (ps : List (ℚ × ℚ)) :
    meanSnd (ps.map Prod.swap) = meanFst ps := by
  unfold meanFst meanSnd
  rw [List.length_map, List.map_map]
  rfl

theorem sumxx_swap (ps : List (ℚ × ℚ)) : sumxx (ps.map Prod.swap) = sumyy ps := by
  unfold sumxx sumyy
  rw [meanFst_swap, List.map_map]
  rfl

theorem sumyy_swap (ps : List (ℚ × ℚ)) : sumyy (ps.map Prod.swap) = sumxx ps := by
  unfold sumxx sumyy
  rw [meanSnd_swap, List.map_map]
  rfl

theorem covxy_swap (ps : List (ℚ × ℚ)) : covxy (ps.map Prod.swap) = covxy ps := by
  unfold covxy
  rw [meanFst_swap, meanSnd_swap, List.map_map]
  apply congrArg List.sum
  apply List.map_congr_left
  intro q _
  simp only [Function.comp_apply, Prod.swap, Prod.fst, Prod.snd]
  ring

/-- Pearson correlation is symmetric in its two columns. -/
theorem corrPair_symm (f g : TransactionRow → Option ℚ)
    (rows : List TransactionRow) :
    corrPair g f rows = corrPair f g rows := by
  unfold corrPair
  rw [completePairs_swap f g rows, List.length_map, sumxx_swap, sumyy_swap,
    covxy_swap,
    mul_comm (sumyy (completePairs f g rows)) (sumxx (completePairs f g rows)),
    mul_comm ((sumyy (completePairs f g rows) : ℝ))
      ((sumxx (completePairs f g rows) : ℝ))]

theorem completePairs_self_eq (f : TransactionRow → Option ℚ)
    (rows : List TransactionRow) :
    ∀ q ∈ completePairs f f rows, q.1 = q.2 := by
  induction rows with
  | nil => simp [completePairs]
  | cons r rest ih =>
    unfold completePairs at *
    rw [List.filterMap_cons]
    cases hf : f r with
    | none => simpa [hf] using ih
    | some a =>
      simp only [hf]
      intro q hq
      rcases List.mem_cons.mp hq with rfl | hq
      · rfl
      · exact ih q hq

theorem sumxx_nonneg (ps : List (ℚ × ℚ)) : 0 ≤ sumxx ps := by
  unfold sumxx
  apply List.sum_nonneg
  intro x hx
  rcases List.mem_map.mp hx with ⟨q, _, rfl⟩
  positivity

/-- On the diagonal (both complete observations present and nonzero
variance) the Pearson correlation is exactly 1. -/
theorem corrPair_self (f : TransactionRow → Option ℚ)
    (rows : List TransactionRow)
    (hn : (completePairs f f rows).length ≠ 0)
    (hv : sumxx (completePairs f f rows) ≠ 0) :
    corrPair f f rows = some 1 := by
  have hself := completePairs_self_eq f rows
  have hmean : meanSnd (completePairs f f rows)
      = meanFst (completePairs f f rows) := by
    unfold meanFst meanSnd
    congr 1
    apply congrArg List.sum
    apply List.map_congr_left
    intro q hq
    exact (hself q hq).symm
  have hyy : sumyy (completePairs f f rows) = sumxx (completePairs f f rows) := by
    unfold sumxx sumyy
    rw [hmean]
    apply congrArg List.sum
    apply List.map_congr_left
    intro q hq
    rw [hself q hq]
  have hcov : covxy (completePairs f f rows)
      = sumxx (completePairs f f rows) := by
    unfold covxy sumxx
    rw [hmean]
    apply congrArg List.sum
    apply List.map_congr_left
    intro q hq
    rw [← hself q hq]
    ring
  have hpos : 0 < sumxx (completePairs f f rows) :=
    lt_of_le_of_ne (sumxx_nonneg _) (Ne.symm hv)
  unfold corrPair
  rw [if_neg hn, hyy, hcov, if_neg (mul_ne_zero hv hv)]
  have hsqrt : Real.sqrt ((sumxx (completePairs f f rows) : ℝ)
      * (sumxx (completePairs f f rows) : ℝ))
      = (sumxx (completePairs f f rows) : ℝ) := by
    apply Real.sqrt_mul_self
    exact_mod_cast le_of_lt hpos
  rw [hsqrt, div_self (by exact_mod_cast hv)]

/-! ### Auxiliary lemmas on the embedded operations -/

theorem intEnumFrom_length (k : Nat) (rows : List ρ) :
    (intEnumFrom k rows).length = rows.length := by
  induction rows generalizing k with
  | nil => rfl
  | cons r rs ih => simp [intEnumFrom, ih]

theorem resetIndex_length (df : DF ρ) : (resetIndex df).length = df.length := by
  unfold resetIndex withDefaultIndex
  rw [intEnumFrom_length, List.length_map]

/-- A successful whole-column date parse rewrites exactly the
transaction-date field of each row, keeping labels and all other
fields. -/
theorem toDatetimeColumn_forall₂ (p : String → Option Int)
    (T T' : DF TransactionRow) (h : toDatetimeColumn p T = .ok T') :
    List.Forall₂ (fun x y => x.1 = y.1 ∧ ∃ t,
      parseDate p x.2.transactionDate = some t ∧ y.2 = setStamp x.2 t) T T' := by
  induction T generalizing T' with
  | nil =>
    rw [toDatetimeColumn] at h
    simp only [Except.ok.injEq] at h
    subst h
    exact List.Forall₂.nil
  | cons x rest ih =>
    obtain ⟨l, r⟩ := x
    rw [toDatetimeColumn] at h
    split at h
    · exact Except.noConfusion h
    · rename_i t hp
      split at h
      · exact Except.noConfusion h
      · rename_i rest' hrest
        simp only [Except.ok.injEq] at h
        subst h
        exact List.Forall₂.cons ⟨rfl, t, hp, rfl⟩ (ih rest' hrest)

/-- If some date cell fails to parse, the column conversion raises
`DateParseError`. -/
theorem toDatetimeColumn_error_of_parse (p : String → Option Int)
    (T : DF TransactionRow)
    (h : ∃ x ∈ T, parseDate p x.2.transactionDate = none) :
    toDatetimeColumn p T = .error .dateParseError := by
  induction T with
  | nil => simp at h
  | cons x rest ih =>
    obtain ⟨l, r⟩ := x
    rw [toDatetimeColumn]
    rcases h with ⟨y, hy, hpy⟩
    rcases List.mem_cons.mp hy with rfl | hy
    · rw [hpy]
    · cases hp : parseDate p r.transactionDate with
      | none => rfl
      | some t =>
        rw [ih ⟨y, hy, hpy⟩]

/-- If every date cell parses, the column conversion succeeds. -/
theorem toDatetimeColumn_ok_of_parse (p : String → Option Int)
    (T : DF TransactionRow)
    (h : ∀ x ∈ T, (parseDate p x.2.transactionDate).isSome) :
    ∃ T', toDatetimeColumn p T = .ok T' := by
  induction T with
  | nil => exact ⟨[], rfl⟩
  | cons x rest ih =>
    obtain ⟨l, r⟩ := x
    obtain ⟨t, hp⟩ := Option.isSome_iff_exists.mp
      (h (l, r) (List.mem_cons_self _ _))
    obtain ⟨rest', hrest⟩ := ih (fun y hy => h y (List.mem_cons_of_mem _ hy))
    refine ⟨(l, setStamp r t) :: rest', ?_⟩
    rw [toDatetimeColumn, hp, hrest]

/-! ### Concrete example data for the witnesses and counterexamples -/

/-- A transaction row with the given amount, merchant name, region and
(textual) transaction date. -/
def exRow (q : ℚ) (nm rg d : String) : TransactionRow :=
  { amount := q, merchantName := nm, mccDescription := "cat"
  , mcc := some 3, merchantZip := some 7, region := rg
  , transactionDate := DateField.text d }

/-- An anomaly row with the given `is_anomaly` flag. -/
def exAnom (b : Int) : AnomalyRow :=
  { ensemble_score := 0, kmeans_score_norm := 0, iso_score_norm := 0
  , recon_error := 0, is_anomaly := b }

/-- A concrete date parser for the examples (a handful of dates written
as integer text; everything else is unparseable). -/
def exParse (s : String) : Option Int :=
  if s = "0" then some 0
  else if s = "1" then some 1
  else if s = "4" then some 4
  else if s = "5" then some 5
  else none

deriving instance DecidableEq for Except

/- Concrete tables.  `c1…`/`c2…` exercise the selection, `c3…` the
in-place date mutation, `c4…` the summary report, `c5…` the temporal
buckets, `c6…` top-K, `c8…` the correlation matrix. -/

def c1T : DF TransactionRow :=
  withDefaultIndex [exRow 10 "a" "east" "1", exRow 50 "b" "west" "1"]

def c1Arows : List AnomalyRow := [exAnom 1, exAnom 0]

/-- The same anomaly rows as `c1Arows`, but carrying permuted index
labels `[1, 0]` instead of the default `[0, 1]`. -/
def c1Abad : DF AnomalyRow := [((1 : Int), exAnom 1), ((0 : Int), exAnom 0)]

def c2T : DF TransactionRow :=
  withDefaultIndex (List.replicate 100 (exRow 1 "m" "east" "1"))

def c2A : DF AnomalyRow := withDefaultIndex (List.replicate 99 (exAnom 1))

def c3T : DF TransactionRow := [((0 : Int), exRow 10 "a" "east" "5")]

def c3A : DF AnomalyRow := [((0 : Int), exAnom 1)]

/-- `c3T` after the temporal analysis: the date text "5" has been
replaced in place by the parsed timestamp. -/
def c3T' : DF TransactionRow :=
  [((0 : Int), setStamp (exRow 10 "a" "east" "5") 5)]

def c4T : DF TransactionRow := withDefaultIndex [exRow 10 "a" "east" "1"]

def c4A : DF AnomalyRow := withDefaultIndex [exAnom 1]

def c5T : DF TransactionRow := withDefaultIndex
  [exRow 10 "a" "east" "0", exRow 20 "b" "east" "1", exRow 30 "c" "east" "4"]

def c5A : DF AnomalyRow := withDefaultIndex [exAnom 1, exAnom 1, exAnom 0]

def c5T' : DF TransactionRow :=
  [((0 : Int), setStamp (exRow 10 "a" "east" "0") 0),
   ((1 : Int), setStamp (exRow 20 "b" "east" "1") 1),
   ((2 : Int), setStamp (exRow 30 "c" "east" "4") 4)]

def c5sub : DF TransactionRow :=
  [((0 : Int), setStamp (exRow 10 "a" "east" "0") 0),
   ((1 : Int), setStamp (exRow 20 "b" "east" "1") 1)]

/-- A table with an unparseable transaction date. -/
def c5Tbad : DF TransactionRow :=
  withDefaultIndex [exRow 10 "a" "east" "nodate"]

def c6T : DF TransactionRow := withDefaultIndex
  [exRow 10 "a" "east" "1", exRow 50 "b" "east" "1",
   exRow 30 "c" "east" "1", exRow 90 "d" "east" "1"]

def c6A : DF AnomalyRow :=
  withDefaultIndex [exAnom 0, exAnom 1, exAnom 0, exAnom 1]

def c6sub : DF TransactionRow :=
  [((1 : Int), exRow 50 "b" "east" "1"), ((3 : Int), exRow 90 "d" "east" "1")]

def c8rows : List TransactionRow :=
  [exRow 1 "p" "east" "1", exRow 2 "q" "east" "1"]

def c8row1 : TransactionRow := exRow 5 "z" "east" "1"

/-! ### The claims -/

/-- C1 (counterexample): the anomalous-subset selection is **not**
independent of index labels.  With the anomaly table carrying labels
`[1, 0]` (row 0 flagged), the code selects row 1 of `T` while the
specified output is row 0 of `T`. -/
theorem C1_counterexample :
    selectAnomalousRows c1T c1Abad
      ≠ some (specSelect c1T (c1Abad.map Prod.snd)) := by
  decide

/-- C1 (amended): provided the anomaly table carries the default ordinal
index labels `0, …, len(A)-1` and `len(T) = len(A)`, the selection
returns exactly the sub-sequence of rows of `T` at the ordinal positions
`i` where `A[i].is_anomaly == 1`, preserving `T`'s row order; `T`'s own
index labels are irrelevant. -/
theorem C1_select_anomalous_default_index (T : DF TransactionRow)
    (Arows : List AnomalyRow) (h : T.length = Arows.length) :
    selectAnomalousRows T (withDefaultIndex Arows)
      = some (specSelect T Arows) := by
  unfold selectAnomalousRows selectRows withDefaultIndex
  have hk := iloc_filter_intEnumFrom (fun a => a.is_anomaly == 1) T Arows 0
    (by omega)
  rw [List.drop_zero] at hk
  rw [hk]
  rfl

theorem C1_select_anomalous_default_index_witness :
    c1T.length = c1Arows.length
    ∧ selectAnomalousRows c1T (withDefaultIndex c1Arows)
        = some (specSelect c1T c1Arows) :=
  ⟨by decide, C1_select_anomalous_default_index c1T c1Arows (by decide)⟩

/-- C2 (code behaviour at the claimed failing input): with
`len(T) = 100` and `len(A) = 99` (default indices, all rows flagged),
the selection silently **returns a 99-row subset** — no `LengthMismatch`
condition exists anywhere in the code. -/
theorem C2_silent_subset_on_length_mismatch :
    ∃ S, selectAnomalousRows c2T c2A = some S ∧ S.length = 99 := by
  have hT : c2T.length = 100 := by
    unfold c2T withDefaultIndex
    rw [intEnumFrom_length, List.length_replicate]
  have h := iloc_filter_intEnumFrom (fun a => a.is_anomaly == 1) c2T
      (List.replicate 99 (exAnom 1)) 0
      (by rw [hT, List.length_replicate]; omega)
  rw [List.drop_zero] at h
  refine ⟨_, h, ?_⟩
  unfold specSelectP
  rw [List.filter_eq_self.mpr ?hall, List.length_map, List.length_zip, hT,
    List.length_replicate]
  · decide
  case hall =>
    intro q hq
    obtain ⟨q1, q2⟩ := q
    have h2 := (List.of_mem_zip hq).2
    rw [List.eq_of_mem_replicate h2]
    rfl

/-- C3 (counterexample): the inputs are **not** all read-only.
`create_temporal_analysis` assigns the parsed date column back onto the
input transactions table, so after the call the table differs from the
original (its text date became a timestamp). -/
theorem C3_counterexample :
    (create_temporal_analysis exParse 1 c3T c3A).toOption.map Prod.fst
      ≠ some c3T := by
  decide

/-- C3 (amended): every chart/report operation except the temporal
analysis is a pure function of its inputs, and the temporal analysis
leaves the anomaly table and every other field of the transactions
table unchanged: the table after the call relates row-by-row to the
input — same label, same row except that the transaction-date field now
holds the parsed timestamp. -/
theorem C3_temporal_rewrites_only_dates (p : String → Option Int) (B : Nat)
    (T : DF TransactionRow) (A : DF AnomalyRow) (T' : DF TransactionRow)
    (counts : List Nat)
    (h : create_temporal_analysis p B T A = .ok (T', counts)) :
    List.Forall₂ (fun x y => x.1 = y.1 ∧ ∃ t,
      parseDate p x.2.transactionDate = some t ∧ y.2 = setStamp x.2 t) T T' := by
  unfold create_temporal_analysis at h
  split at h
  · exact Except.noConfusion h
  · rename_i Td hcol
    split at h
    · exact Except.noConfusion h
    · rename_i sub hsel
      simp only [Except.ok.injEq, Prod.mk.injEq] at h
      obtain ⟨hT, -⟩ := h
      subst hT
      exact toDatetimeColumn_forall₂ p T _ hcol

theorem C3_temporal_rewrites_only_dates_witness :
    create_temporal_analysis exParse 1 c3T c3A = .ok (c3T', [1])
    ∧ List.Forall₂ (fun x y => x.1 = y.1 ∧ ∃ t,
        parseDate exParse x.2.transactionDate = some t ∧ y.2 = setStamp x.2 t)
      c3T c3T' := by
  have h : create_temporal_analysis exParse 1 c3T c3A = .ok (c3T', [1]) := by
    decide
  exact ⟨h, C3_temporal_rewrites_only_dates exParse 1 c3T c3A c3T' [1] h⟩

/-- C4 (code behaviour at the claimed failing input): when every row is
flagged anomalous, the summary report **succeeds** and prints NaN
(`none`) as the mean of the empty normal group — no `EmptyGroup`
condition exists in the code. -/
theorem C4_empty_group_mean_is_nan :
    print_summary_statistics c4T c4A
      = .ok { totalAnomalies := 1
            , pctFlagged := 100
            , topRegions := [("east", 1)]
            , anomalousMean := some 10
            , normalMean := none } := by
  norm_num [print_summary_statistics, c4T, c4A, resetIndex, withDefaultIndex,
    intEnumFrom, selectRows, dfFilter, dfIndex, iloc, ilocOne, exRow, exAnom,
    qmean, valueCounts, uniqueInOrder, stableDescSort, sortIdx,
    List.insertionSort, List.orderedInsert, keyOrder]

/-- C5 (counterexample): the histogram buckets span the [min, max] of
the anomalous **subset's** dates (`histplot` bins the data it is
given), not of the full dataset as the claim states.  On dates 0, 1
(anomalous) and 4 (normal) with two buckets, the code yields counts
[1, 1] (subset range [0, 1]) while the spec-described bucketing over
the full range [0, 4] yields [2, 0]. -/
theorem C5_counterexample :
    (create_temporal_analysis exParse 2 c5T c5A).toOption.map Prod.snd
      ≠ (specTemporalBuckets exParse 2 c5T c5A).toOption := by
  have h1 : create_temporal_analysis exParse 2 c5T c5A = .ok (c5T', [1, 1]) := by
    simp [create_temporal_analysis, toDatetimeColumn, parseDate, exParse,
      stampOf, histogram, histogramRange, bucketOf, listMin, listMax,
      selectAnomalousRows, selectRows, dfFilter, dfIndex, iloc, ilocOne,
      c5T, c5A, c5T', withDefaultIndex, intEnumFrom, exRow, exAnom, setStamp]
    decide
  have h2 : specTemporalBuckets exParse 2 c5T c5A = .ok [2, 0] := by
    simp [specTemporalBuckets, toDatetimeColumn, parseDate, exParse,
      stampOf, histogram, histogramRange, bucketOf, listMin, listMax,
      selectAnomalousRows, selectRows, dfFilter, dfIndex, iloc, ilocOne,
      c5T, c5A, withDefaultIndex, intEnumFrom, exRow, exAnom, setStamp]
    norm_num
    decide
  rw [h1, h2]
  simp [Except.toOption]

/-- C5 (amended): temporal bucketing parses the **full** dataset's
dates, failing with `DateParseError` on any unparseable value, and then
partitions the anomalous-subset timestamps into `bucket_count`
equal-width buckets spanning [min, max] of the **subset's** dates: each
timestamp lands in exactly one bucket, so the counts sum to the subset
size, and with `bucket_count = 1` the single bucket's count equals the
subset size. -/
theorem C5_temporal_buckets (p : String → Option Int) (B : Nat)
    (T : DF TransactionRow) (A : DF AnomalyRow) (hB : 1 ≤ B) :
    ((∃ x ∈ T, parseDate p x.2.transactionDate = none) →
      create_temporal_analysis p B T A = .error .dateParseError)
    ∧ (∀ (T' : DF TransactionRow) (counts : List Nat)
        (sub : DF TransactionRow),
        create_temporal_analysis p B T A = .ok (T', counts) →
        selectAnomalousRows T' A = some sub → sub ≠ [] →
        counts.sum = sub.length ∧ (B = 1 → counts = [sub.length])) := by
  constructor
  · intro h
    unfold create_temporal_analysis
    rw [toDatetimeColumn_error_of_parse p T h]
  · intro T' counts sub h hsel hne
    unfold create_temporal_analysis at h
    split at h
    · exact Except.noConfusion h
    · rename_i Td hcol
      split at h
      · exact Except.noConfusion h
      · rename_i sub₀ hsel₀
        simp only [Except.ok.injEq, Prod.mk.injEq] at h
        obtain ⟨hT, hc⟩ := h
        subst hT
        rw [hsel₀] at hsel
        simp only [Option.some.injEq] at hsel
        subst hsel
        subst hc
        cases sub₀ with
        | nil => exact absurd rfl hne
        | cons s ss =>
          rw [List.map_cons]
          constructor
          · rw [histogram_sum B hB]
            simp
          · intro hB1
            subst hB1
            rw [histogram_one_bucket]
            simp

theorem C5_temporal_buckets_witness :
    ((∃ x ∈ c5Tbad, parseDate exParse x.2.transactionDate = none)
      ∧ create_temporal_analysis exParse 1 c5Tbad c5A
          = .error .dateParseError)
    ∧ (create_temporal_analysis exParse 1 c5T c5A = .ok (c5T', [2])
      ∧ selectAnomalousRows c5T' c5A = some c5sub ∧ c5sub ≠ []
      ∧ List.sum [2] = c5sub.length ∧ ((1 : Nat) = 1 → [2] = [c5sub.length])) := by
  have hok : create_temporal_analysis exParse 1 c5T c5A = .ok (c5T', [2]) := by
    simp [create_temporal_analysis, toDatetimeColumn, parseDate, exParse,
      stampOf, histogram, histogramRange, bucketOf, listMin, listMax,
      selectAnomalousRows, selectRows, dfFilter, dfIndex, iloc, ilocOne,
      c5T, c5A, c5T', withDefaultIndex, intEnumFrom, exRow, exAnom, setStamp]
    decide
  have hres := (C5_temporal_buckets exParse 1 c5T c5A (by decide)).2
    c5T' [2] c5sub hok (by decide) (by decide)
  refine ⟨⟨by decide, (C5_temporal_buckets exParse 1 c5Tbad c5A (by decide)).1
    (by decide)⟩, hok, by decide, by decide, hres.1, fun _ => hres.2 rfl⟩

/-- C6: for every subset, every `K ≥ 0` and numeric sort key, top-K
returns the `K` rows with the largest key: the output has length
`min K n`, is in descending key order, position-tagged sorting breaks
ties by strictly increasing original position (stability), the whole
subset (as a permutation) is returned when `K ≥ n`, and everything not
selected has key at most that of everything selected.  In particular,
for amounts (10, 50, 30, 90) with rows 1 and 3 anomalous, the anomalous
subset is rows 1 and 3 and top-1 by amount is the amount-90 row. -/
theorem C6_topK_by_amount :
    (∀ (ρ : Type) (k : Nat) (key : ρ → ℚ) (l : List ρ),
      (nlargest k key l).length = min k l.length
      ∧ (nlargest k key l).Pairwise (fun x y => key y ≤ key x)
      ∧ (sortIdx key l).Pairwise (fun p q =>
          key q.2 < key p.2 ∨ (key p.2 = key q.2 ∧ p.1 < q.1))
      ∧ (l.length ≤ k → (nlargest k key l).Perm l)
      ∧ ∃ rest, l.Perm (nlargest k key l ++ rest)
          ∧ ∀ x ∈ nlargest k key l, ∀ y ∈ rest, key y ≤ key x)
    ∧ selectAnomalousRows c6T c6A = some c6sub
    ∧ topAnomaliesByAmount 1 c6T c6A
        = some [((3 : Int), exRow 90 "d" "east" "1")] := by
  refine ⟨?_, by decide, by decide⟩
  intro ρ k key l
  exact ⟨nlargest_length k key l, nlargest_pairwise k key l,
    sortIdx_sorted_strict key l, nlargest_perm_of_le k key l,
    nlargest_largest k key l⟩

theorem C6_topK_by_amount_witness :
    ([(10 : ℚ), 50, 30] : List ℚ).length ≤ 5
    ∧ (nlargest 5 id [(10 : ℚ), 50, 30]).Perm [10, 50, 30] :=
  ⟨by decide, (C6_topK_by_amount.1 ℚ 5 id [10, 50, 30]).2.2.2.1 (by decide)⟩

/-- C7: `value_counts` returns (value, count) pairs whose counts sum to
the subset size, sorted by count descending; the position-tagged sort
is strictly lex-sorted (ties broken by first-occurrence order);
`.head(n)` truncates to at most `n` entries; and the MCC chart is
exactly `value_counts().head(10)` of the anomalous subset's MCC
descriptions. -/
theorem C7_value_counts {α : Type} [DecidableEq α] (vals : List α) (n : Nat)
    (T : DF TransactionRow) (A : DF AnomalyRow) :
    ((valueCounts vals).map Prod.snd).sum = vals.length
    ∧ (valueCounts vals).Pairwise (fun p q => q.2 ≤ p.2)
    ∧ (sortIdx (fun p : α × Nat => (p.2 : ℚ))
        ((uniqueInOrder vals).map (fun v => (v, vals.count v)))).Pairwise
        (fun p q => ((q.2.2 : ℚ) < (p.2.2 : ℚ))
          ∨ ((p.2.2 : ℚ) = (q.2.2 : ℚ) ∧ p.1 < q.1))
    ∧ ((valueCounts vals).take n).length = min n (valueCounts vals).length
    ∧ (∀ sub, selectAnomalousRows T A = some sub →
        create_mcc_analysis T A
          = some ((valueCounts (sub.map (fun r => r.2.mccDescription))).take 10)) := by
  refine ⟨valueCounts_sum vals, valueCounts_pairwise vals, ?_,
    List.length_take _ _, ?_⟩
  · exact sortIdx_sorted_strict (fun p : α × Nat => (p.2 : ℚ))
      ((uniqueInOrder vals).map (fun v => (v, vals.count v)))
  · intro sub hsub
    unfold create_mcc_analysis
    rw [hsub]
    rfl

theorem C7_value_counts_witness :
    selectAnomalousRows c6T c6A = some c6sub
    ∧ create_mcc_analysis c6T c6A
        = some ((valueCounts (c6sub.map (fun r => r.2.mccDescription))).take 10) :=
  ⟨by decide,
    (C7_value_counts ([] : List Nat) 0 c6T c6A).2.2.2.2 c6sub (by decide)⟩

/-- C8 (counterexample): the diagonal of the correlation matrix is
**not** always 1.0.  For a nonempty field list and a nonempty table
whose amount column is constant (a single row suffices), the variance
is zero and pandas produces NaN (`none`) on the diagonal. -/
theorem C8_counterexample :
    corrMatrix [amountField] [c8row1] = [[none]]
    ∧ (none : Option ℝ) ≠ some 1 := by
  constructor
  · have hcp : completePairs amountField amountField [c8row1]
        = [((5 : ℚ), (5 : ℚ))] := rfl
    unfold corrMatrix
    simp only [List.map_cons, List.map_nil]
    have hnone : corrPair amountField amountField [c8row1] = none := by
      unfold corrPair
      rw [hcp, if_neg (by decide), if_pos ?_]
      norm_num [sumxx, sumyy, meanFst, meanSnd]
    rw [hnone]
  · simp

/-- C8 (amended): the correlation matrix is square (one row per field,
each of that length) and symmetric, and the diagonal entry of a field
is exactly 1.0 whenever the field has at least one complete observation
and nonzero variance over its complete observations; a zero-variance or
observation-free column yields NaN (`none`) instead. -/
theorem C8_corr_matrix (fields : List (TransactionRow → Option ℚ))
    (rows : List TransactionRow) :
    (corrMatrix fields rows).length = fields.length
    ∧ (∀ row ∈ corrMatrix fields rows, row.length = fields.length)
    ∧ (∀ i j : Nat,
        ((corrMatrix fields rows)[i]?.bind (fun row => row[j]?))
          = ((corrMatrix fields rows)[j]?.bind (fun row => row[i]?)))
    ∧ (∀ (i : Nat) (f : TransactionRow → Option ℚ), fields[i]? = some f →
        (completePairs f f rows).length ≠ 0 →
        sumxx (completePairs f f rows) ≠ 0 →
        ((corrMatrix fields rows)[i]?.bind (fun row => row[i]?))
          = some (some 1)) := by
  refine ⟨?_, ?_, ?_, ?_⟩
  · unfold corrMatrix
    exact List.length_map _ _
  · intro row hrow
    unfold corrMatrix at hrow
    rcases List.mem_map.mp hrow with ⟨f, _, rfl⟩
    exact List.length_map _ _
  · intro i j
    unfold corrMatrix
    rw [List.getElem?_map, List.getElem?_map]
    cases hfi : fields[i]? with
    | none => cases hfj : fields[j]? <;> simp [List.getElem?_map, hfi, hfj]
    | some f =>
      cases hfj : fields[j]? with
      | none => simp [List.getElem?_map, hfi, hfj]
      | some g =>
        simp only [Option.map_some', Option.some_bind, List.getElem?_map,
          hfi, hfj]
        exact congrArg some (corrPair_symm f g rows).symm
  · intro i f hfi hn hv
    unfold corrMatrix
    rw [List.getElem?_map, hfi]
    simp only [Option.map_some', Option.some_bind, List.getElem?_map, hfi,
      Option.map_some']
    rw [corrPair_self f rows hn hv]

theorem C8_corr_matrix_witness :
    (([amountField] : List (TransactionRow → Option ℚ))[0]? = some amountField
      ∧ (completePairs amountField amountField c8rows).length ≠ 0
      ∧ sumxx (completePairs amountField amountField c8rows) ≠ 0)
    ∧ ((corrMatrix [amountField] c8rows)[0]?.bind (fun row => row[0]?))
        = some (some 1) := by
  have hv : sumxx (completePairs amountField amountField c8rows) ≠ 0 := by
    have hcp : completePairs amountField amountField c8rows
        = [((1 : ℚ), (1 : ℚ)), ((2 : ℚ), (2 : ℚ))] := rfl
    rw [hcp]
    norm_num [sumxx, meanFst]
  exact ⟨⟨rfl, by decide, hv⟩,
    (C8_corr_matrix [amountField] c8rows).2.2.2 0 amountField rfl
      (by decide) hv⟩

/-- C9: top-K is idempotent: applying `nlargest` with the same `K` to
its own output returns that output unchanged, as the same sequence in
the same order. -/
theorem C9_topK_idempotent {ρ : Type} (k : Nat) (key : ρ → ℚ) (l : List ρ) :
    nlargest k key (nlargest k key l) = nlargest k key l :=
  nlargest_idem k key l

/-- C10: the flagged-percentage computation divides by `len(A)` with no
guard: on an empty anomaly table the report fails with the
division-by-zero error (instead of reporting 0%), and on any nonempty
row-aligned input it succeeds, reporting the anomaly count divided by
`len(A)` times 100. -/
theorem C10_flagged_percentage_guard :
    (∀ T : DF TransactionRow,
      print_summary_statistics T [] = .error .zeroDivision)
    ∧ (∀ (T : DF TransactionRow) (A : DF AnomalyRow),
        A.length = T.length → A ≠ [] →
        ∃ s, print_summary_statistics T A = .ok s
          ∧ s.pctFlagged = (s.totalAnomalies : ℚ) / (A.length : ℚ) * 100) := by
  constructor
  · intro T
    unfold print_summary_statistics
    simp [resetIndex, withDefaultIndex, intEnumFrom, selectRows, dfFilter,
      dfIndex, iloc]
  · intro T A hlen hne
    have hre : resetIndex A = intEnumFrom 0 (A.map Prod.snd) := rfl
    have hTd : (resetIndex T).length = T.length := resetIndex_length T
    have h1 := iloc_filter_intEnumFrom (fun a => a.is_anomaly == 1)
      (resetIndex T) (A.map Prod.snd) 0
      (by rw [hTd, List.length_map]; omega)
    have h0 := iloc_filter_intEnumFrom (fun a => a.is_anomaly == 0)
      (resetIndex T) (A.map Prod.snd) 0
      (by rw [hTd, List.length_map]; omega)
    rw [List.drop_zero] at h1 h0
    have hAne : ¬ (intEnumFrom 0 (A.map Prod.snd)).length = 0 := by
      rw [intEnumFrom_length, List.length_map]
      intro h
      exact hne (List.length_eq_zero.mp h)
    unfold print_summary_statistics selectRows
    rw [hre]
    simp only [h1, h0, if_neg hAne]
    refine ⟨_, rfl, ?_⟩
    rw [intEnumFrom_length, List.length_map]

theorem C10_flagged_percentage_guard_witness :
    (c6A.length = c6T.length ∧ c6A ≠ [])
    ∧ ∃ s, print_summary_statistics c6T c6A = .ok s
        ∧ s.pctFlagged = (s.totalAnomalies : ℚ) / (c6A.length : ℚ) * 100 :=
  ⟨⟨by decide, by decide⟩,
    C10_flagged_percentage_guard.2 c6T c6A (by decide) (by decide)⟩
